import Mathlib

/-!
Verification of `src/epub-utils/parse_epubs.py` against its natural-language
specification.  The Python source is shallowly embedded: strings are modelled
as `List Char` (Lean strings are `List Char`-backed), dictionaries as
association lists or key lists, the zip archive as the list of its normalized
member names, mutation (media-extraction cache, warning output) as explicit
state passing, and Python exceptions/`None` returns as `Option`.
-/

namespace ParseEpubs

/-! ## Python string primitives -/

/-- Characters treated as whitespace by Python `str.strip()` (ASCII range). -/
def isPySpace (c : Char) : Bool :=
  c == ' ' || c == '\t' || c == '\n' || c == '\r' || c == '\x0b' || c == '\x0c'

/-- Python `str.strip()` on character lists: drop whitespace from both ends. -/
def pyStrip (p : Char → Bool) (l : List Char) : List Char :=
  (l.dropWhile p).rdropWhile p

/-- Python `s.strip()` for `String`. -/
def pyStripStr (s : String) : String :=
  String.mk (pyStrip isPySpace s.data)

/-- `pre` is a prefix of `s` (Python `str.startswith`). -/
def strStartsWith (s pre : String) : Bool :=
  pre.data.isPrefixOf s.data

/-- `suf` is a suffix of `s` (Python `str.endswith`). -/
def strEndsWith (s suf : String) : Bool :=
  suf.data.isSuffixOf s.data

/-- Python `str.split(sep)` for a one-character separator. -/
def splitOnChar (sep : Char) : List Char → List (List Char)
  | [] => [[]]
  | c :: rest =>
    match splitOnChar sep rest with
    | [] => [[]]
    | h :: t => if c = sep then [] :: h :: t else (c :: h) :: t

/-! ## posixpath primitives used by the source -/

/-- `posixpath.normpath`, transcribed from the CPython implementation:
split on `/`, drop `""` and `"."` components, resolve `".."` against the
accumulated components, and re-join (keeping one or two initial slashes). -/
def normpathL (p : List Char) : List Char :=
  if p = [] then ['.']
  else
    let slashes : Nat :=
      if p.head? = some '/' then
        if ['/', '/'].isPrefixOf p ∧ ¬ ['/', '/', '/'].isPrefixOf p then 2 else 1
      else 0
    let comps := splitOnChar '/' p
    let newComps := comps.foldl (fun acc comp =>
      if comp = [] ∨ comp = ['.'] then acc
      else if comp ≠ ['.', '.'] ∨ (slashes = 0 ∧ acc = []) ∨ acc.getLast? = some ['.', '.'] then
        acc ++ [comp]
      else if acc ≠ [] then acc.dropLast
      else acc) []
    let joined := List.intercalate ['/'] newComps
    let res := List.replicate slashes '/' ++ joined
    if res = [] then ['.'] else res

/-- `posixpath.normpath` on `String`. -/
def normpath (p : String) : String :=
  String.mk (normpathL p.data)

/-- Python `str.lstrip("./")`: drop every leading `'.'` or `'/'` character. -/
def lstripDotSlash (s : String) : String :=
  String.mk (s.data.dropWhile (fun c => c == '.' || c == '/'))

/-- `posixpath.basename`: everything after the last `/` (empty if the string
ends with `/`). -/
def pbasename (p : String) : String :=
  String.mk ((p.data.reverse.takeWhile (fun c => c ≠ '/')).reverse)

/-- `posixpath.dirname`: the prefix up to the last `/`, with trailing slashes
stripped unless the prefix consists only of slashes. -/
def pdirname (p : String) : String :=
  let head := (p.data.reverse.dropWhile (fun c => c ≠ '/')).reverse
  if head ≠ [] ∧ ¬ head.all (fun c => c = '/') then String.mk (head.rdropWhile (fun c => c = '/'))
  else String.mk head

/-- `posixpath.join` restricted to two arguments, as used by the source. -/
def pjoin (a b : String) : String :=
  if strStartsWith b "/" then b
  else if a = "" ∨ strEndsWith a "/" then a ++ b
  else a ++ "/" ++ b

/-! ## `_normalize_href`, `_is_external_src`, zip membership -/

/-- `_normalize_href`: strip whitespace, convert backslashes, drop a `?` query
suffix (`split("?", 1)[0]`), `posixpath.normpath`, then `lstrip("./")`. -/
def normalize_href (value : String) : String :=
  let v := pyStrip isPySpace value.data
  let v := v.map (fun c => if c = '\\' then '/' else c)
  let v := v.takeWhile (fun c => c ≠ '?')
  lstripDotSlash (normpath (String.mk v))

/-- `_is_external_src`: lowercased, stripped value starts with an external or
data scheme. -/
def is_external_src (value : String) : Bool :=
  let lowered := String.mk ((pyStrip isPySpace value.data).map Char.toLower)
  strStartsWith lowered "http://" || strStartsWith lowered "https://" ||
    strStartsWith lowered "data:"

/-- `_zip_has`: membership of the normalized path among the normalized archive
member names (`zipNames` models the keys of `_zip_namelist_map`, which are
`posixpath.normpath(name).lstrip("./")` for each archive entry). -/
def zipHas (zipNames : List String) (path : String) : Bool :=
  lstripDotSlash (normpath path) ∈ zipNames

/-! ## `_slugify` -/

/-- The character class `[A-Za-z0-9._-]` from `_slugify`'s regex. -/
def slugChar (c : Char) : Bool :=
  ('A' ≤ c && c ≤ 'Z') || ('a' ≤ c && c ≤ 'z') || ('0' ≤ c && c ≤ '9') ||
    c == '.' || c == '_' || c == '-'

/-- Scanner for `re.sub(r"[^A-Za-z0-9._-]+", "_", ·)`: the flag records
whether the previous character belonged to a disallowed run, so each maximal
run contributes a single underscore. -/
def subDisallowedAux : Bool → List Char → List Char
  | _, [] => []
  | inRun, c :: rest =>
    if slugChar c then c :: subDisallowedAux false rest
    else if inRun then subDisallowedAux true rest
    else '_' :: subDisallowedAux true rest

/-- `re.sub(r"[^A-Za-z0-9._-]+", "_", ·)`: each maximal run of disallowed
characters becomes a single underscore. -/
def subDisallowedRuns (l : List Char) : List Char :=
  subDisallowedAux false l

/-- Characters removed from both ends by `.strip("_.-")`. -/
def slugStripSet (c : Char) : Bool :=
  c == '_' || c == '.' || c == '-'

/-- `_slugify`: strip whitespace, replace disallowed runs with `_`, strip
`_.-` from both ends, and fall back to the placeholder `"book"` when empty. -/
def slugify (value : String) : String :=
  let v := subDisallowedRuns (pyStrip isPySpace value.data)
  let v := pyStrip slugStripSet v
  if v = [] then "book" else String.mk v

/-! ## `_normalize_text` -/

/-- First pass of `_normalize_text`: `text.replace("\r\n", "\n")`. -/
def replaceCRLF : List Char → List Char
  | [] => []
  | [c] => [c]
  | c :: d :: rest =>
    if c = '\r' ∧ d = '\n' then '\n' :: replaceCRLF rest
    else c :: replaceCRLF (d :: rest)

/-- Second pass: `text.replace("\r", "\n")`. -/
def replaceCR (l : List Char) : List Char :=
  l.map (fun c => if c = '\r' then '\n' else c)

/-- `re.sub(r"\n{3,}", "\n\n", ·)` as a scanner: `n` counts the pending run of
newlines; a run is emitted as `min n 2` newlines, so runs of one or two
newlines survive unchanged and longer runs collapse to exactly two. -/
def collapseNL : Nat → List Char → List Char
  | n, [] => List.replicate (min n 2) '\n'
  | n, c :: rest =>
    if c = '\n' then collapseNL (n + 1) rest
    else List.replicate (min n 2) '\n' ++ c :: collapseNL 0 rest

/-- `_normalize_text`: normalize line endings, collapse runs of three or more
newlines to two, strip surrounding whitespace. -/
def normalize_text (s : String) : String :=
  String.mk (pyStrip isPySpace (collapseNL 0 (replaceCR (replaceCRLF s.data))))

/-- Verification helper for `_normalize_text`: with `n` newlines already
pending, every maximal newline run of the remaining input stays within
length two — the shape `collapseNL` outputs and leaves unchanged. -/
def runsOkAux : Nat → List Char → Bool
  | n, [] => decide (n ≤ 2)
  | n, c :: rest =>
    if c = '\n' then runsOkAux (n + 1) rest
    else decide (n ≤ 2) && runsOkAux 0 rest

/-! ## `main`: per-book outcomes and the process exit code -/

/-- Outcome of `parse_epub` for one book, as observed by `main`:
`ok` (a path is returned), `noContent` (`parse_epub` returned `None`,
printed as "No readable content"), or `raised` (an exception reached the
batch boundary). -/
inductive BookOutcome where
  | ok
  | noContent
  | raised
deriving DecidableEq, Repr

/-- `main`'s failure counter: `raised` and `noContent` each add one. -/
def countFailures (outcomes : List BookOutcome) : Nat :=
  outcomes.countP (fun b => b ≠ BookOutcome.ok)

/-- The exit code computed by `main`: `1` when no EPUB files were found,
otherwise `0` if the failure count is zero and `2` if it is positive. -/
def mainExitCode (outcomes : List BookOutcome) : Nat :=
  if outcomes = [] then 1
  else if countFailures outcomes = 0 then 0 else 2

/-! ## `_resolve_href` and the unique-basename map -/

/-- The `while normalized.startswith("../")` loop of `_resolve_href`: strip
one `../` at a time, returning the first stripped value found in the manifest
(first component) or, failing that, the fully stripped value (second
component), which the source goes on to use for basename matching. -/
def resolveDots (manifestHrefs : List String) : List Char → Option String × List Char
  | '.' :: '.' :: '/' :: rest =>
    if String.mk rest ∈ manifestHrefs then (some (String.mk rest), rest)
    else resolveDots manifestHrefs rest
  | l => (none, l)

/-- `_resolve_href`: (a) exact normalized match; (b) strip leading `../`
segments one at a time, retrying; (c) the unique-basename map; (d) the unique
manifest href ending in `/basename`; otherwise no match.  `manifestHrefs`
models the keys of `manifest_by_href` in insertion order, `manifestByBasename`
the `manifest_by_basename` dict. -/
def resolve_href (href : String) (manifestHrefs : List String)
    (manifestByBasename : List (String × String)) : Option String :=
  if href = "" then none
  else
    let normalized := normalize_href href
    if normalized ∈ manifestHrefs then some normalized
    else
      match resolveDots manifestHrefs normalized.data with
      | (some r, _) => some r
      | (none, finalChars) =>
        let basename := pbasename (String.mk finalChars)
        match manifestByBasename.lookup basename with
        | some v => some v
        | none =>
          match manifestHrefs.filter (fun key => strEndsWith key ("/" ++ basename)) with
          | [m] => some m
          | _ => none

/-- One step of the `basenames` grouping inside `_build_toc_entries`:
`basenames.setdefault(base, []).append(href)` on an insertion-ordered
association list. -/
def groupInsert (base href : String) (acc : List (String × List String)) :
    List (String × List String) :=
  if acc.any (fun g => g.1 = base) then
    acc.map (fun g => if g.1 = base then (g.1, g.2 ++ [href]) else g)
  else acc ++ [(base, [href])]

/-- The `basenames` grouping built inside `_build_toc_entries`, over the
manifest keys. -/
def groupBasenames (manifestHrefs : List String) : List (String × List String) :=
  manifestHrefs.foldl (fun acc href => groupInsert (pbasename href) href acc) []

/-- `manifest_by_basename` as built in `_build_toc_entries`: only groups with
exactly one href survive. -/
def mkUniqueBasenameMap (manifestHrefs : List String) : List (String × String) :=
  (groupBasenames manifestHrefs).filterMap (fun g =>
    match g.2 with
    | [h] => some (g.1, h)
    | _ => none)

/-! ### Spec-side formulation of the resolution order (for the refinement
theorem of claim C6).  This follows the specification's words: (a) exact
normalized match; (b) if the value has leading `../` segments, strip one at a
time and retry exact match; (c) match by file basename, but only if exactly
one manifest href shares that basename; (d) match by unique manifest href
ending in `/basename`; no match otherwise. -/

/-- Successive `../`-stripped forms of a value (spec step (b) candidates),
in the order they are tried. -/
def dotStrippedForms : List Char → List (List Char)
  | '.' :: '.' :: '/' :: rest => rest :: dotStrippedForms rest
  | _ => []

/-- The fully `../`-stripped form of a value. -/
def dotStrippedFinal : List Char → List Char
  | '.' :: '.' :: '/' :: rest => dotStrippedFinal rest
  | l => l

/-- Spec-side resolver (claim C6): the four resolution steps in order, with
uniqueness in steps (c) and (d) expressed by counting manifest hrefs. -/
def resolveHrefSpec (href : String) (manifestHrefs : List String) : Option String :=
  if href = "" then none
  else
    let normalized := normalize_href href
    if normalized ∈ manifestHrefs then some normalized
    else
      match (dotStrippedForms normalized.data).find? (fun f => String.mk f ∈ manifestHrefs) with
      | some f => some (String.mk f)
      | none =>
        let basename := pbasename (String.mk (dotStrippedFinal normalized.data))
        let sharing := manifestHrefs.filter (fun h => pbasename h = basename)
        match sharing with
        | [m] => some m
        | _ =>
          match manifestHrefs.filter (fun key => strEndsWith key ("/" ++ basename)) with
          | [m] => some m
          | _ => none

/-! ## Navigation tree: `_split_target`, `_flatten_toc_items`,
`_prettify_section_name`, `_build_toc_entries` -/

/-- A navigation node as consumed by `_build_toc_entries` (`label`, `target`,
`children`). -/
inductive TocItem where
  | mk (target : String) (label : String) (children : List TocItem)

/-- The target string of a navigation node. -/
def TocItem.target : TocItem → String
  | .mk t _ _ => t

/-- The label of a navigation node. -/
def TocItem.label : TocItem → String
  | .mk _ l _ => l

/-- The children of a navigation node. -/
def TocItem.children : TocItem → List TocItem
  | .mk _ _ cs => cs

mutual

/-- `_flatten_toc_items`: pre-order depth-first traversal, parents before
children, left to right. -/
def flatten_toc_items : List TocItem → List TocItem
  | [] => []
  | item :: rest => flattenOneItem item ++ flatten_toc_items rest

/-- One node of `_flatten_toc_items`: the node itself, then its flattened
children. -/
def flattenOneItem : TocItem → List TocItem
  | .mk t l cs => .mk t l cs :: flatten_toc_items cs

end

/-- `_split_target`: split on the first `#` into href and fragment; an absent
or empty fragment becomes `none` (`fragment or None`). -/
def split_target (target : String) : String × Option String :=
  if target = "" then ("", none)
  else
    let href := String.mk (target.data.takeWhile (fun c => c ≠ '#'))
    let fragChars := (target.data.dropWhile (fun c => c ≠ '#')).tail
    (href, if fragChars = [] then none else some (String.mk fragChars))

/-- `Path(value).stem`: the basename without its final suffix.  A suffix
exists when the last `.` of the name is neither at position 0 nor at the very
end. -/
def pathStem (value : String) : String :=
  let name := pbasename value
  let n := name.data
  let afterDot := n.reverse.takeWhile (fun c => c ≠ '.')
  if afterDot.length = n.length then name
  else
    let i := n.length - 1 - afterDot.length
    if 0 < i ∧ i < n.length - 1 then String.mk (n.take i) else name

/-- Scanner for `re.sub(r"[_-]+", " ", ·)`: the flag records whether the
previous character belonged to a `_`/`-` run, so each maximal run becomes one
space. -/
def subSeparatorAux : Bool → List Char → List Char
  | _, [] => []
  | inRun, c :: rest =>
    if c = '_' ∨ c = '-' then
      if inRun then subSeparatorAux true rest else ' ' :: subSeparatorAux true rest
    else c :: subSeparatorAux false rest

/-- `re.sub(r"[_-]+", " ", ·)`: each maximal run of `_`/`-` becomes one
space. -/
def subSeparatorRuns (l : List Char) : List Char :=
  subSeparatorAux false l

/-- Python `str.title()` restricted to ASCII letters: the first letter of
each alphabetic run is uppercased, later letters lowercased. -/
def pyTitle : Bool → List Char → List Char
  | _, [] => []
  | prevAlpha, c :: rest =>
    if c.isAlpha then
      (if prevAlpha then c.toLower else c.toUpper) :: pyTitle true rest
    else c :: pyTitle false rest

/-- `_prettify_section_name`: stem of the filename, `_`/`-` runs to spaces,
stripped, then title-cased (or the original value when that leaves nothing). -/
def prettify_section_name (value : String) : String :=
  let base := pyStrip isPySpace (subSeparatorRuns (pathStem value).data)
  if base = [] then value else String.mk (pyTitle false base)

/-- A resolved navigation entry (`TocEntry` dataclass). -/
structure TocEntry where
  label : String
  href : String
  fragment : Option String
  order : Nat
deriving DecidableEq, Repr

/-- The per-item loop of `_build_toc_entries`, with the running `order`
counter: the counter advances only when an entry is appended. -/
def buildEntriesAux (manifestHrefs : List String)
    (manifestByBasename : List (String × String)) (spineHrefs : List String) :
    List TocItem → Nat → List TocEntry
  | [], _ => []
  | item :: rest, order =>
    let target := pyStripStr item.target
    let label := pyStripStr item.label
    let hrefFrag := split_target target
    match resolve_href hrefFrag.1 manifestHrefs manifestByBasename with
    | none => buildEntriesAux manifestHrefs manifestByBasename spineHrefs rest order
    | some resolved =>
      if resolved ∈ spineHrefs then
        let label' := if label = "" then prettify_section_name resolved else label
        ⟨label', resolved, hrefFrag.2, order⟩ ::
          buildEntriesAux manifestHrefs manifestByBasename spineHrefs rest (order + 1)
      else buildEntriesAux manifestHrefs manifestByBasename spineHrefs rest order

/-- `_build_toc_entries`: flatten the navigation tree pre-order and resolve
each node, discarding nodes whose href does not resolve into the spine. -/
def build_toc_entries (tocItems : List TocItem) (manifestHrefs : List String)
    (spineHrefs : List String) : List TocEntry :=
  buildEntriesAux manifestHrefs (mkUniqueBasenameMap manifestHrefs) spineHrefs
    (flatten_toc_items tocItems) 0

/-- Whether one navigation node is kept by `_build_toc_entries` (its target
resolves into the spine).  Used to formalize claim C2's notion of a node's
pre-order traversal position. -/
def tocItemKept (manifestHrefs : List String) (spineHrefs : List String)
    (item : TocItem) : Bool :=
  let hrefFrag := split_target (pyStripStr item.target)
  match resolve_href hrefFrag.1 manifestHrefs (mkUniqueBasenameMap manifestHrefs) with
  | some resolved => resolved ∈ spineHrefs
  | none => false

/-- Claim C2's reading of `order`: the pre-order traversal positions of the
kept navigation nodes. -/
def keptTraversalPositions (tocItems : List TocItem) (manifestHrefs : List String)
    (spineHrefs : List String) : List Nat :=
  ((flatten_toc_items tocItems).enum.filter
    (fun p => tocItemKept manifestHrefs spineHrefs p.2)).map (fun p => p.1)

/-! ## The parsed content tree

An lxml element: tag (stored as its local name, matching what
`_element_local_name` extracts), attributes, the text before the first child
(`.text`, `none` when absent), element children, and the text following the
end tag (`.tail`).  Node identity, which the source uses via `getparent`,
`is` and `list.index`, is modelled by paths (lists of child indices) into a
fixed tree; an lxml element occurs exactly once in its tree, so a path
determines the object and `list(parent).index(child)` is the child's
position. -/

inductive HNode where
  | mk (tag : String) (attrs : List (String × String)) (text : Option String)
      (children : List HNode) (tail : Option String)

/-- The element's tag (local name). -/
def HNode.tag : HNode → String
  | .mk t _ _ _ _ => t

/-- The element's attributes. -/
def HNode.attrs : HNode → List (String × String)
  | .mk _ a _ _ _ => a

/-- The element's text before its first child. -/
def HNode.text : HNode → Option String
  | .mk _ _ tx _ _ => tx

/-- The element children (`list(element)` in lxml lists only elements). -/
def HNode.children : HNode → List HNode
  | .mk _ _ _ cs _ => cs

/-- The text following the element's end tag. -/
def HNode.tail : HNode → Option String
  | .mk _ _ _ _ tl => tl

/-- `element.get(key)`: lxml attribute lookup (attribute keys are unique). -/
def HNode.getAttr (n : HNode) (key : String) : Option String :=
  n.attrs.lookup key

/-- ASCII lowercasing of a string (Python `str.lower()` on tag names). -/
def strLower (s : String) : String :=
  String.mk (s.data.map Char.toLower)

/-- The node addressed by a path of child indices. -/
def getAt : HNode → List Nat → Option HNode
  | n, [] => some n
  | n, i :: p =>
    match n.children[i]? with
    | some c => getAt c p
    | none => none

mutual

/-- Path of the first node satisfying `pred` in document (pre-order) order,
as an xpath `//*[...]` query returns it. -/
def findNodePath (pred : HNode → Bool) : HNode → Option (List Nat)
  | .mk t a tx cs tl =>
    if pred (.mk t a tx cs tl) then some []
    else findPathInList pred cs 0

/-- Helper of `findNodePath` over a child list starting at index `i`. -/
def findPathInList (pred : HNode → Bool) : List HNode → Nat → Option (List Nat)
  | [], _ => none
  | c :: rest, i =>
    match findNodePath pred c with
    | some p => some (i :: p)
    | none => findPathInList pred rest (i + 1)

end

mutual

/-- All nodes satisfying `pred` in document (pre-order) order. -/
def findAllNodes (pred : HNode → Bool) : HNode → List HNode
  | .mk t a tx cs tl =>
    (if pred (.mk t a tx cs tl) then [HNode.mk t a tx cs tl] else []) ++
      findAllInList pred cs

/-- Helper of `findAllNodes` over a child list. -/
def findAllInList (pred : HNode → Bool) : List HNode → List HNode
  | [] => []
  | c :: rest => findAllNodes pred c ++ findAllInList pred rest

end

/-- The heading tag set `_HEADING_TAGS`. -/
def HEADING_TAGS : List String := ["h1", "h2", "h3", "h4", "h5", "h6"]

/-- `_is_heading`. -/
def is_heading (n : HNode) : Bool :=
  strLower n.tag ∈ HEADING_TAGS

/-- `_heading_level`: `int(name[1])` for a two-character name starting with
`h`, else 0.  (At every call site the name is one of h1–h6, so the digit
conversion cannot fail.) -/
def heading_level (n : HNode) : Nat :=
  match (strLower n.tag).data with
  | ['h', c] => if c.isDigit then c.toNat - 48 else 0
  | _ => 0

/-- `_find_anchor_node` as a path: first element with `@id = fragment` in
document order, else the first `a` element with `@name = fragment`; `none`
for an empty fragment. -/
def findAnchorPath (tree : HNode) (fragment : String) : Option (List Nat) :=
  if fragment = "" then none
  else
    match findNodePath (fun n => n.getAttr "id" = some fragment) tree with
    | some p => some p
    | none => findNodePath (fun n => strLower n.tag = "a" ∧ n.getAttr "name" = some fragment) tree

/-- `_find_body_node` as a path: the first element with local name `body` in
document order. -/
def findBodyPath (tree : HNode) : Option (List Nat) :=
  findNodePath (fun n => strLower n.tag = "body") tree

/-- `_top_level_body_child` on paths: ascend from the node at `ap` until the
parent is the body at `bp`; this succeeds exactly when `bp` is a strict
prefix of `ap`, and the resulting top-level child is `ap`'s component just
below `bp` (its index among the body's children). -/
def topChildIndex (bp ap : List Nat) : Option Nat :=
  if bp.isPrefixOf ap then ap[bp.length]? else none

/-- `_collect_heading_section_nodes`, given the heading's siblings and its
position among them (`siblings.index(heading)`; list indexing in lxml is by
object identity, so the position is exact and the `ValueError` branch cannot
fire): the heading plus following siblings up to, but excluding, the next
sibling heading of level ≤ the heading's level.  The leading `Bool` of the
helper tracks `sibling is not heading`, true only at the heading itself. -/
def collectHeadingGo (level : Nat) : Bool → List HNode → List HNode
  | _, [] => []
  | isSelf, sib :: rest =>
    if ¬ isSelf ∧ is_heading sib ∧ heading_level sib ≤ level then []
    else sib :: collectHeadingGo level false rest

/-- `_collect_heading_section_nodes` (see `collectHeadingGo`). -/
def collect_heading_section_nodes (siblings : List HNode) (startIndex : Nat) : List HNode :=
  match siblings[startIndex]? with
  | none => []
  | some heading =>
    let nodes := collectHeadingGo (heading_level heading) true (siblings.drop startIndex)
    if nodes.isEmpty then [heading] else nodes

/-- The node-selection part of `_extract_fragment_span_markdown` (lines
488–522): locate the body and the start anchor, take the anchor's top-level
body child as the slice start, and slice up to the end fragment's top-level
child when that lies strictly after the start (else to the end of the body).
`some ""` never reaches this function as an end fragment in the pipeline, but
the `if end_fragment:` truthiness test is modelled faithfully. -/
def extractFragmentSpanNodes (tree : HNode) (startFragment : String)
    (endFragment : Option String) : Option (List HNode) :=
  match findBodyPath tree with
  | none => none
  | some bp =>
    match findAnchorPath tree startFragment with
    | none => none
    | some ap =>
      match getAt tree bp with
      | none => none
      | some body =>
        let children := body.children
        if children.isEmpty then none
        else
          match topChildIndex bp ap with
          | none => none
          | some startIdx =>
            let endIdx :=
              match endFragment with
              | none => children.length
              | some ef =>
                if ef = "" then children.length
                else
                  match findAnchorPath tree ef with
                  | none => children.length
                  | some ap2 =>
                    match topChildIndex bp ap2 with
                    | none => children.length
                    | some c => if startIdx < c then c else children.length
            let nodes := (children.drop startIdx).take (endIdx - startIdx)
            if nodes.isEmpty then none else some nodes

/-- The node-selection part of `_extract_until_fragment_markdown` (lines
551–569): everything strictly before the end fragment's top-level body
child. -/
def extractUntilFragmentNodes (tree : HNode) (endFragment : String) :
    Option (List HNode) :=
  match findBodyPath tree with
  | none => none
  | some bp =>
    match findAnchorPath tree endFragment with
    | none => none
    | some ap =>
      match getAt tree bp with
      | none => none
      | some body =>
        let children := body.children
        if children.isEmpty then none
        else
          match topChildIndex bp ap with
          | none => none
          | some endIdx =>
            let nodes := children.take endIdx
            if nodes.isEmpty then none else some nodes

/-! ## The plain-mode Markdown renderer (`_HtmlToMarkdown`)

`_render_markdown` serializes nodes with `etree.tostring` (which includes
each node's tail text, and emits childless, textless elements self-closed)
and feeds the result through an `HTMLParser` subclass.  The
serialize-then-reparse round trip is modelled directly as the stream of
parser events (start tag / self-closing tag / end tag / character data) that
the serialization produces, folded through the parser's handler state
machine. -/

/-- Python `sep.join(strings)`. -/
def strJoin (sep : String) : List String → String
  | [] => ""
  | [s] => s
  | s :: rest => s ++ sep ++ strJoin sep rest

/-- `_HtmlToMarkdown.BLOCK_TAGS`. -/
def BLOCK_TAGS : List String :=
  ["p", "div", "section", "article", "br", "hr", "li", "ul", "ol", "table",
   "tr", "td", "th", "blockquote"]

/-- `_HtmlToMarkdown.IGNORE_TAGS`. -/
def IGNORE_TAGS : List String := ["head", "title", "style", "script", "svg"]

/-- Mutable state of `_HtmlToMarkdown`. -/
structure MdState where
  lines : List String
  headingLevel : Option Nat
  headingChunks : List String
  ignoreDepth : Nat
deriving DecidableEq, Repr

/-- The parser's initial state. -/
def initMdState : MdState := ⟨[], none, [], 0⟩

/-- `_ensure_blank_line`: append an empty line unless there are no lines yet
or the last line is already empty. -/
def ensureBlankLine (st : MdState) : MdState :=
  if st.lines = [] then st
  else if st.lines.getLast? = some "" then st
  else { st with lines := st.lines ++ [""] }

/-- `attr_map = {key.lower(): value for key, value in attrs}` followed by
`.get(name, "") or ""`: dict construction keeps the last value for a repeated
key. -/
def attrMapGet (attrs : List (String × String)) (key : String) : String :=
  match (attrs.filter (fun a => strLower a.1 = key)).getLast? with
  | some a => a.2
  | none => ""

/-- The shared `img` handling of `handle_starttag`/`handle_startendtag`:
resolve `src`/`alt` and, when the result is truthy, emit a blank-delimited
Markdown image line. -/
def handleImg (resolver : Option (String → String → Option String))
    (st : MdState) (attrs : List (String × String)) : MdState :=
  let src := attrMapGet attrs "src"
  let alt := attrMapGet attrs "alt"
  let resolved : Option String :=
    match resolver with
    | some f => f src alt
    | none => none
  match resolved with
  | some r =>
    if r = "" then st
    else
      let st := ensureBlankLine st
      let st := { st with lines := st.lines ++ ["![" ++ alt ++ "](" ++ r ++ ")"] }
      ensureBlankLine st
  | none => st

/-- `handle_starttag`. -/
def handleStartTag (resolver : Option (String → String → Option String))
    (st : MdState) (tag : String) (attrs : List (String × String)) : MdState :=
  let tag := strLower tag
  if tag ∈ IGNORE_TAGS then { st with ignoreDepth := st.ignoreDepth + 1 }
  else if st.ignoreDepth ≠ 0 then st
  else if tag = "img" then handleImg resolver st attrs
  else if tag ∈ HEADING_TAGS then
    let lvl : Nat :=
      match tag.data with
      | [_, c] => c.toNat - 48
      | _ => 0
    ensureBlankLine { st with headingLevel := some lvl, headingChunks := [] }
  else if tag ∈ BLOCK_TAGS then ensureBlankLine st
  else st

/-- `handle_endtag`.  `self._heading_level or 2` is Python truthiness: both
`None` and `0` fall back to 2. -/
def handleEndTag (st : MdState) (tag : String) : MdState :=
  let tag := strLower tag
  if tag ∈ IGNORE_TAGS then
    if st.ignoreDepth ≠ 0 then { st with ignoreDepth := st.ignoreDepth - 1 } else st
  else if st.ignoreDepth ≠ 0 then st
  else if tag ∈ HEADING_TAGS then
    let headingText := pyStripStr (strJoin " " st.headingChunks)
    let st' :=
      if headingText ≠ "" then
        let level : Nat :=
          match st.headingLevel with
          | some l => if l = 0 then 2 else l
          | none => 2
        { st with lines :=
            st.lines ++ [String.mk (List.replicate level '#') ++ " " ++ headingText] }
      else st
    ensureBlankLine { st' with headingLevel := none, headingChunks := [] }
  else if tag ∈ BLOCK_TAGS then ensureBlankLine st
  else st

/-- `handle_data`: stripped text is buffered into the current heading, starts
a new line after a blank, or is appended to the current line with a single
space. -/
def handleData (st : MdState) (dat : String) : MdState :=
  if st.ignoreDepth ≠ 0 then st
  else
    let text := pyStripStr dat
    if text = "" then st
    else
      match st.headingLevel with
      | some _ => { st with headingChunks := st.headingChunks ++ [text] }
      | none =>
        match st.lines.getLast? with
        | none => { st with lines := [text] }
        | some lastLine =>
          if lastLine = "" then { st with lines := st.lines ++ [text] }
          else
            { st with lines := st.lines.dropLast ++
                [String.mk (lastLine.data.rdropWhile isPySpace) ++ " " ++ text] }

/-- `handle_startendtag`: self-closing ignored tags do not touch the ignore
depth; `img` and block tags behave as in `handle_starttag`. -/
def handleStartEndTag (resolver : Option (String → String → Option String))
    (st : MdState) (tag : String) (attrs : List (String × String)) : MdState :=
  let tag := strLower tag
  if tag ∈ IGNORE_TAGS ∨ st.ignoreDepth ≠ 0 then st
  else if tag = "img" then handleImg resolver st attrs
  else if tag ∈ BLOCK_TAGS then ensureBlankLine st
  else st

/-- `markdown()`: join the lines and strip. -/
def mdResult (st : MdState) : String :=
  pyStripStr (strJoin "\n" st.lines)

/-- One `HTMLParser` event of the serialized markup. -/
inductive MdEvent where
  | startTag (tag : String) (attrs : List (String × String))
  | startEndTag (tag : String) (attrs : List (String × String))
  | endTag (tag : String)
  | data (s : String)

/-- Dispatch one event to the matching handler. -/
def stepEvent (resolver : Option (String → String → Option String))
    (st : MdState) : MdEvent → MdState
  | .startTag t a => handleStartTag resolver st t a
  | .startEndTag t a => handleStartEndTag resolver st t a
  | .endTag t => handleEndTag st t
  | .data s => handleData st s

mutual

/-- The event stream `etree.tostring(node)` produces when re-parsed: an
element with neither text nor children serializes self-closed; otherwise
start tag, text, children and end tag; the node's tail follows in both
cases. -/
def nodeEvents : HNode → List MdEvent
  | .mk tag attrs tx cs tl =>
    (if tx.isNone && cs.isEmpty then [MdEvent.startEndTag tag attrs]
     else MdEvent.startTag tag attrs ::
       ((match tx with | some s => [MdEvent.data s] | none => []) ++
         childEvents cs ++ [MdEvent.endTag tag])) ++
      (match tl with | some s => [MdEvent.data s] | none => [])

/-- Events of a list of serialized siblings. -/
def childEvents : List HNode → List MdEvent
  | [] => []
  | c :: rest => nodeEvents c ++ childEvents rest

end

/-- Events of `_nodes_to_html`: the serializations joined with `"\n"` (the
separator re-parses as whitespace-only character data, which `handle_data`
discards). -/
def nodesEvents : List HNode → List MdEvent
  | [] => []
  | [n] => nodeEvents n
  | n :: rest => nodeEvents n ++ MdEvent.data "\n" :: nodesEvents rest

/-- Run the parser over an event stream and read off the Markdown. -/
def htmlEventsToMarkdown (resolver : Option (String → String → Option String))
    (events : List MdEvent) : String :=
  mdResult (events.foldl (stepEvent resolver) initMdState)

/-- `_render_markdown (_nodes_to_html nodes)` in plain mode: the serialization
of a non-empty node list is never whitespace-only and always looks like HTML
(it contains tags), so it is parsed to Markdown and post-processed by
`_normalize_text`; an empty list serializes to `""` and returns `""`. -/
def renderNodesPlain (resolver : Option (String → String → Option String))
    (nodes : List HNode) : String :=
  if nodes.isEmpty then ""
  else normalize_text (htmlEventsToMarkdown resolver (nodesEvents nodes))

/-- `_render_full_markdown` (plain mode): render every `body` element found
in document order; with no `body`, fall back to `_render_markdown` on the raw
markup, modelled as the serialization of the parsed tree. -/
def render_full_markdown (resolver : Option (String → String → Option String))
    (tree : HNode) : String :=
  match findAllNodes (fun n => strLower n.tag = "body") tree with
  | [] => normalize_text (htmlEventsToMarkdown resolver (nodeEvents tree))
  | bodyNodes => renderNodesPlain resolver bodyNodes

/-- `_extract_fragment_span_markdown`: render the selected top-level span,
returning `none` when nothing was selected or the rendering is empty. -/
def extract_fragment_span_markdown (resolver : Option (String → String → Option String))
    (tree : HNode) (startFragment : String) (endFragment : Option String) :
    Option String :=
  match extractFragmentSpanNodes tree startFragment endFragment with
  | none => none
  | some nodes =>
    let text := renderNodesPlain resolver nodes
    if text = "" then none else some text

/-- `_extract_until_fragment_markdown`: render everything before the end
fragment's top-level body child. -/
def extract_until_fragment_markdown (resolver : Option (String → String → Option String))
    (tree : HNode) (endFragment : String) : Option String :=
  match extractUntilFragmentNodes tree endFragment with
  | none => none
  | some nodes =>
    let text := renderNodesPlain resolver nodes
    if text = "" then none else some text

/-- `render_partial_content` (plain mode): dispatch on the truthiness of the
two fragments — both: span; start only: from the fragment onward; end only:
up to the fragment; neither: the whole document. -/
def render_partial_content (resolver : Option (String → String → Option String))
    (tree : HNode) (startFragment endFragment : Option String) : Option String :=
  let sf := startFragment.getD ""
  let ef := endFragment.getD ""
  if sf ≠ "" ∧ ef ≠ "" then extract_fragment_span_markdown resolver tree sf endFragment
  else if sf ≠ "" then extract_fragment_span_markdown resolver tree sf none
  else if ef ≠ "" then extract_until_fragment_markdown resolver tree ef
  else some (render_full_markdown resolver tree)

/-! ## Media extraction and image resolution

`extract_media_href` and `make_image_resolver` are closures over mutable
per-book state (`extracted_images`, `extracted_count`, warnings printed to
stdout), modelled as explicit state passing.  Writing the extracted bytes to
disk is outside the embedding; extraction succeeds exactly when the archive
membership test of `_extract_zip_file` succeeds. -/

/-- The per-book mutable state of media extraction: the
`extracted_images` cache, `extracted_count`, and the warnings printed so
far. -/
structure MediaState where
  extractedImages : List (String × String)
  extractedCount : Nat
  warnings : List String
deriving DecidableEq, Repr

/-- `extract_media_href`: answer from the cache, else extract from the
archive (caching the new relative path), else warn and return `None`. -/
def extract_media_href (zipNames : List String)
    (packageHref bookSlug epubName : String) (href : String) (st : MediaState) :
    Option String × MediaState :=
  match st.extractedImages.lookup href with
  | some p => (some p, st)
  | none =>
    if zipHas zipNames (pjoin packageHref href) then
      let relPath := "./" ++ bookSlug ++ "/images/" ++ href
      (some relPath,
        { st with extractedImages := st.extractedImages ++ [(href, relPath)],
                  extractedCount := st.extractedCount + 1 })
    else
      (none, { st with warnings :=
          st.warnings ++ ["Warning: missing media '" ++ href ++ "' in " ++ epubName] })

/-- `resolve_image` (the closure returned by `make_image_resolver`): empty
`src` is falsy (`src or None`); external/data URIs pass through; otherwise
resolve relative to the base document, require manifest or raw archive
membership, and extract — falling back to the original `src` when extraction
fails (`extracted or src`). -/
def resolve_image (manifestHrefs zipNames : List String)
    (packageHref bookSlug epubName baseHref : String) (src _alt : String)
    (st : MediaState) : Option String × MediaState :=
  if src = "" then (none, st)
  else if is_external_src src then (some src, st)
  else
    let resolved := normalize_href (pjoin (pdirname baseHref) src)
    if resolved ∈ manifestHrefs then
      match extract_media_href zipNames packageHref bookSlug epubName resolved st with
      | (e, st') => (some (e.getD src), st')
    else if ¬ zipHas zipNames (pjoin packageHref resolved) then (some src, st)
    else
      match extract_media_href zipNames packageHref bookSlug epubName resolved st with
      | (e, st') => (some (e.getD src), st')

/-- The resolution *result* of `resolve_image` as a pure function of the
inputs.  This is what the rendering model threads into `_HtmlToMarkdown`:
the cache only memoizes — a cache hit returns the same
`./<slug>/images/<href>` path a fresh extraction would produce — so the
returned value never depends on the mutable state. -/
def resolveImagePure (manifestHrefs zipNames : List String)
    (packageHref bookSlug baseHref : String) (src _alt : String) : Option String :=
  if src = "" then none
  else if is_external_src src then some src
  else
    let resolved := normalize_href (pjoin (pdirname baseHref) src)
    let extracted : Option String :=
      if zipHas zipNames (pjoin packageHref resolved) then
        some ("./" ++ bookSlug ++ "/images/" ++ resolved)
      else none
    if resolved ∈ manifestHrefs then some (extracted.getD src)
    else if ¬ zipHas zipNames (pjoin packageHref resolved) then some src
    else some (extracted.getD src)

/-! ## The per-entry section loop of `parse_epub` (TOC branch, plain mode)

Spine documents carry their resolved href and parsed tree; `tree = none`
models `get_content_data` returning `None` (content lookup failure), whose
spine document is skipped by the loop.  CSS collection
(`record_css_for_content`) is a rich-mode no-op and plain mode is modelled.
Each rendered part is tagged with the spine index it came from; the tag is
ghost information the source does not keep, recording which document
contributed which chunk. -/

/-- One spine entry: resolved href and the parsed content document. -/
structure SpineDoc where
  href : String
  tree : Option HNode

/-- `spine_index_by_href`: a dict comprehension, so a repeated href keeps its
last spine index. -/
def spineIndexByHref (spine : List SpineDoc) (href : String) : Option Nat :=
  (spine.enum.reverse.find? (fun p => p.2.href = href)).map (fun p => p.1)

/-- `get_content_data`: content for an href, found through
`spine_href_to_idref` (also last-wins).  The content cache only memoizes and
is dropped from the model. -/
def get_content_data (spine : List SpineDoc) (href : String) : Option HNode :=
  (spine.reverse.find? (fun d => d.href = href)).bind (fun d => d.tree)

/-- The body of `for spine_idx in range(start_idx, end_idx + 1)` for one
`TocEntry` (lines 931–959): compute `start_idx`/`end_idx`, skip degenerate
entries, skip the end document entirely when the next entry has no fragment,
and collect the non-empty rendered parts tagged with their spine index. -/
def renderEntryPart (manifestHrefs zipNames : List String)
    (packageHref bookSlug : String) (spine : List SpineDoc)
    (entry : TocEntry) (nextEntry : Option TocEntry)
    (startIdx endIdx spineIdx : Nat) : Option (Nat × String) :=
  match spine[spineIdx]? with
  | none => none
  | some sd =>
    match get_content_data spine sd.href with
    | none => none
    | some tree =>
      let startFragment := if spineIdx = startIdx then entry.fragment else none
      let skipEndDoc : Bool :=
        match nextEntry with
        | some ne => spineIdx == endIdx && ne.fragment.isNone
        | none => false
      if skipEndDoc then none
      else
        let endFragment : Option String :=
          match nextEntry with
          | some ne => if spineIdx = endIdx then ne.fragment else none
          | none => none
        let resolver :=
          some (resolveImagePure manifestHrefs zipNames packageHref bookSlug sd.href)
        match render_partial_content resolver tree startFragment endFragment with
        | none => none
        | some part => if part = "" then none else some (spineIdx, part)

/-- The `end_idx` computation of the loop: the next entry's spine index,
falling back to the last spine index when it is absent or there is no next
entry. -/
def entryEndIdx (spine : List SpineDoc) (nextEntry : Option TocEntry) : Nat :=
  match nextEntry with
  | some ne => (spineIndexByHref spine ne.href).getD (spine.length - 1)
  | none => spine.length - 1

/-- See `renderEntryPart` for the per-document body of the loop. -/
def entryParts (manifestHrefs zipNames : List String)
    (packageHref bookSlug : String) (spine : List SpineDoc)
    (entry : TocEntry) (nextEntry : Option TocEntry) : List (Nat × String) :=
  match spineIndexByHref spine entry.href with
  | none => []
  | some startIdx =>
    let endIdx : Nat := entryEndIdx spine nextEntry
    if endIdx < startIdx then []
    else
      (List.range' startIdx (endIdx + 1 - startIdx)).filterMap
        (renderEntryPart manifestHrefs zipNames packageHref bookSlug spine entry
          nextEntry startIdx endIdx)

/-- The TOC branch of `parse_epub`'s section assembly: for each entry, join
its parts with a blank line, normalize, and emit `(label, text)` when the
text is non-empty.  The leading component is the entry's position in the
resolved TOC list (ghost information identifying which entry produced which
section). -/
def tocSectionsTagged (manifestHrefs zipNames : List String)
    (packageHref bookSlug : String) (spine : List SpineDoc)
    (entries : List TocEntry) : List (Nat × String × String) :=
  entries.enum.filterMap (fun p =>
    let parts := entryParts manifestHrefs zipNames packageHref bookSlug spine p.2
      entries[p.1 + 1]?
    let text := normalize_text (strJoin "\n\n" (parts.map (fun q => q.2)))
    if text = "" then none else some (p.1, p.2.label, text))

/-! ## Concrete instances used by counterexamples and witnesses -/

/-- Body of `exDoc1`: a heading-anchored section followed by a higher-level
heading — `h2#sec`, `p`, `h1`, `p`. -/
def exBody1 : HNode :=
  .mk "body" [] none [
    .mk "h2" [("id", "sec")] (some "Title") [] none,
    .mk "p" [] (some "para") [] none,
    .mk "h1" [] (some "Next") [] none,
    .mk "p" [] (some "after") [] none] none

/-- A content document whose fragment anchor `#sec` is an `h2` heading. -/
def exDoc1 : HNode :=
  .mk "html" [] none [.mk "head" [] none [] none, exBody1] none

/-- Content document `a.xhtml` of the two-entry scenario: text before the
`#s1` heading, the heading, and body text. -/
def docA : HNode :=
  .mk "html" [] none [
    .mk "head" [] none [.mk "title" [] (some "A") [] none] none,
    .mk "body" [] none [
      .mk "p" [] (some "intro a") [] none,
      .mk "h1" [("id", "s1")] (some "Chapter One") [] none,
      .mk "p" [] (some "body one") [] none] none] none

/-- Content document `b.xhtml` of the two-entry scenario: a preamble before
the `#s2` heading. -/
def docB : HNode :=
  .mk "html" [] none [
    .mk "head" [] none [.mk "title" [] (some "B") [] none] none,
    .mk "body" [] none [
      .mk "p" [] (some "preamble b") [] none,
      .mk "h1" [("id", "s2")] (some "Chapter Two") [] none,
      .mk "p" [] (some "body two") [] none] none] none

/-- A third content document, used by the cross-document witness. -/
def docC : HNode :=
  .mk "html" [] none [
    .mk "head" [] none [] none,
    .mk "body" [] none [.mk "p" [] (some "gamma") [] none] none] none

/-- The manifest (and spine hrefs) of the scenario examples. -/
def exManifest : List String := ["a.xhtml", "b.xhtml"]

/-- The two-document spine of the scenario. -/
def exSpine : List SpineDoc := [⟨"a.xhtml", some docA⟩, ⟨"b.xhtml", some docB⟩]

/-- Raw navigation items of the scenario `{("Ch1","a.xhtml#s1"),
("Ch2","b.xhtml#s2")}`. -/
def exTocItems : List TocItem :=
  [.mk "a.xhtml#s1" "Ch1" [], .mk "b.xhtml#s2" "Ch2" []]

/-- The first resolved entry of the scenario. -/
def exE1 : TocEntry := ⟨"Ch1", "a.xhtml", some "s1", 0⟩

/-- The second resolved entry of the scenario. -/
def exE2 : TocEntry := ⟨"Ch2", "b.xhtml", some "s2", 1⟩

/-- The resolved scenario TOC. -/
def exEntries : List TocEntry := [exE1, exE2]

/-- Navigation items with an unresolvable first target, for the order-gap
counterexample. -/
def exTocItemsGap : List TocItem :=
  [.mk "missing.xhtml" "Bad" [], .mk "a.xhtml" "Alpha" [], .mk "b.xhtml" "Beta" []]

/-- A three-document spine for the cross-document witness. -/
def exSpine3 : List SpineDoc :=
  [⟨"a.xhtml", some docA⟩, ⟨"b.xhtml", some docB⟩, ⟨"c.xhtml", some docC⟩]

/-- First entry of the cross-document witness: whole `a.xhtml` onward. -/
def exF1 : TocEntry := ⟨"First", "a.xhtml", none, 0⟩

/-- Second entry of the cross-document witness: starts `c.xhtml`, no
fragment. -/
def exF2 : TocEntry := ⟨"Second", "c.xhtml", none, 1⟩

/-- Entries whose first chapter is degenerate (`end_idx < start_idx`), for
the claim C3 witness. -/
def exEntriesDeg : List TocEntry :=
  [⟨"Late", "b.xhtml", none, 0⟩, ⟨"Early", "a.xhtml", none, 1⟩]

/-! ## Theorems -/

theorem pyStrip_sublist (p : Char → Bool) (l : List Char) : List.Sublist (pyStrip p l) l := by
  unfold pyStrip
  exact (( List.rdropWhile_prefix p (l.dropWhile p)).sublist).trans (List.dropWhile_sublist p)

theorem mem_of_mem_pyStrip {p : Char → Bool} {l : List Char} {c : Char}
    (h : c ∈ pyStrip p l) : c ∈ l :=
  (pyStrip_sublist p l).mem h

theorem slugChar_of_mem_subDisallowedAux {l : List Char} {b : Bool} {c : Char}
    (h : c ∈ subDisallowedAux b l) : slugChar c = true := by
  induction l generalizing b with
  | nil => simp [subDisallowedAux] at h
  | cons d rest ih =>
    rw [subDisallowedAux] at h
    by_cases hd : slugChar d = true
    · rw [if_pos hd] at h
      rcases List.mem_cons.mp h with rfl | h
      · exact hd
      · exact ih h
    · rw [if_neg hd] at h
      by_cases hb : b = true
      · rw [if_pos hb] at h
        exact ih h
      · rw [if_neg hb] at h
        rcases List.mem_cons.mp h with rfl | h
        · decide
        · exact ih h

/-- Claim C9: `_slugify` is deterministic, returns a non-empty string whose
characters all lie in `[A-Za-z0-9._-]`, and yields the fixed placeholder
`"book"` whenever stripping leaves nothing. -/
theorem slugify_props (s : String) :
    (∀ t : String, s = t → slugify s = slugify t) ∧
    slugify s ≠ "" ∧
    (∀ c ∈ (slugify s).data, slugChar c = true) ∧
    (pyStrip slugStripSet (subDisallowedRuns (pyStrip isPySpace s.data)) = [] →
      slugify s = "book") := by
  refine ⟨fun t ht => ht ▸ rfl, ?_, ?_, ?_⟩
  · simp only [slugify]
    split
    · decide
    · next hne =>
      intro h
      exact hne (congrArg String.data h)
  · intro c hc
    simp only [slugify] at hc
    split at hc
    · have : ∀ x ∈ "book".data, slugChar x = true := by decide
      exact this c hc
    · exact slugChar_of_mem_subDisallowedAux (mem_of_mem_pyStrip hc)
  · intro h
    simp only [slugify, h]
    rfl

/-- Witness for claim C9 at concrete titles. -/
theorem slugify_props_witness :
    slugify "  Hello, World!  " ≠ "" ∧ slugify "??" = "book" :=
  ⟨(slugify_props "  Hello, World!  ").2.1, (slugify_props "??").2.2.2 (by decide)⟩

/-- Claim C8 counterexample: with no EPUB files found there is no book that
failed to parse or produced zero chapters, yet `main` returns 1. -/
theorem exit_code_no_epubs_counterexample :
    mainExitCode [] = 1 ∧ (∀ b ∈ ([] : List BookOutcome), b = BookOutcome.ok) := by
  constructor
  · rfl
  · intro b hb
    cases hb

/-- Claim C8 (amended): the exit code is non-zero iff no EPUB file was found
or at least one book failed to parse or produced zero chapters. -/
theorem exit_code_nonzero_iff (outcomes : List BookOutcome) :
    mainExitCode outcomes ≠ 0 ↔
      (outcomes = [] ∨ ∃ b ∈ outcomes, b ≠ BookOutcome.ok) := by
  unfold mainExitCode countFailures
  by_cases he : outcomes = []
  · simp [he]
  · rw [if_neg he]
    by_cases hc : List.countP (fun b => decide (b ≠ BookOutcome.ok)) outcomes = 0
    · rw [if_pos hc]
      have hall := List.countP_eq_zero.mp hc
      constructor
      · intro h
        exact absurd rfl h
      · rintro (h | ⟨b, hb, hbe⟩)
        · exact absurd h he
        · have hb2 := hall b hb
          simp only [ne_eq, decide_not, Bool.not_eq_true', decide_eq_false_iff_not,
            Decidable.not_not] at hb2
          exact absurd hb2 hbe
    · rw [if_neg hc]
      have hpos := Nat.pos_of_ne_zero hc
      have hex := List.countP_pos_iff.mp hpos
      constructor
      · intro _
        right
        rcases hex with ⟨b, hb, hbe⟩
        refine ⟨b, hb, ?_⟩
        simpa using hbe
      · intro _
        decide

theorem buildEntriesAux_orders (m : List String) (bb : List (String × String))
    (spine : List String) (items : List TocItem) (k : Nat) :
    (buildEntriesAux m bb spine items k).map (fun e => e.order) =
      List.range' k (buildEntriesAux m bb spine items k).length := by
  induction items generalizing k with
  | nil => rfl
  | cons item rest ih =>
    rw [buildEntriesAux]
    split
    · exact ih k
    · split
      · simp only [List.map_cons, List.length_cons, List.range']
        exact congrArg _ (ih (k + 1))
      · exact ih k

/-- Claim C2 (amended): `_build_toc_entries` renumbers — the orders of the
emitted entries are exactly `0, 1, 2, …` (contiguous, strictly increasing,
no gaps), regardless of discarded navigation nodes. -/
theorem toc_orders_contiguous (items : List TocItem) (m spine : List String) :
    (build_toc_entries items m spine).map (fun e => e.order) =
      List.range (build_toc_entries items m spine).length := by
  rw [List.range_eq_range']
  exact buildEntriesAux_orders m (mkUniqueBasenameMap m) spine (flatten_toc_items items) 0

/-- Claim C2 counterexample: after the unresolvable first node is discarded,
the surviving entries get orders 0 and 1, not their pre-order traversal
positions 1 and 2 — discarding leaves no gap. -/
theorem toc_order_gap_counterexample :
    (build_toc_entries exTocItemsGap exManifest exManifest).map (fun e => e.order) = [0, 1] ∧
    keptTraversalPositions exTocItemsGap exManifest exManifest = [1, 2] ∧
    ([0, 1] : List Nat) ≠ [1, 2] :=
  ⟨rfl, rfl, by decide⟩

/-- Claim C1 counterexample: in `exDoc1` the fragment `sec` anchors the `h2`
heading, yet the rendered section is all four top-level body children — it
runs past the following `h1` (level 1 ≤ 2) down to the end of the document,
while the claimed heading-scoped section is only `[h2, p]`. -/
theorem heading_section_scoping_counterexample :
    (extractFragmentSpanNodes exDoc1 "sec" none).map (fun l => l.map HNode.tag) =
      some ["h2", "p", "h1", "p"] ∧
    (collect_heading_section_nodes exBody1.children 0).map HNode.tag = ["h2", "p"] ∧
    some ["h2", "p", "h1", "p"] ≠ some (["h2", "p"] : List String) ∧
    render_partial_content none exDoc1 (some "sec") none =
      some "## Title\n\npara\n\n# Next\n\nafter" :=
  ⟨rfl, rfl, by decide, rfl⟩

/-- Claim C1 (amended): when a fragment anchors inside the body and no end
fragment is supplied, the rendered section is the anchor's top-level body
child together with every following top-level child, to the end of the
document — heading-scoped sectioning is not applied on this code path. -/
theorem fragment_span_runs_to_document_end
    (tree body : HNode) (frag : String) (bp ap : List Nat) (k : Nat)
    (hb : findBodyPath tree = some bp)
    (ha : findAnchorPath tree frag = some ap)
    (hg : getAt tree bp = some body)
    (hpre : bp.isPrefixOf ap = true)
    (hk : ap[bp.length]? = some k)
    (hklen : k < body.children.length) :
    extractFragmentSpanNodes tree frag none = some (body.children.drop k) := by
  have h1 : body.children.isEmpty = false := by
    cases hcc : body.children with
    | nil => rw [hcc] at hklen; simp at hklen
    | cons a l => rfl
  have h2 : topChildIndex bp ap = some k := by
    unfold topChildIndex
    rw [if_pos hpre, hk]
  have h3 : (body.children.drop k).take (body.children.length - k) =
      body.children.drop k := by
    rw [← List.length_drop]
    exact List.take_length _
  have h4 : (body.children.drop k).isEmpty = false := by
    cases hdd : body.children.drop k with
    | nil =>
      have := congrArg List.length hdd
      rw [List.length_drop] at this
      simp at this
      omega
    | cons a l => rfl
  unfold extractFragmentSpanNodes
  rw [hb, ha]
  simp only [hg, h1, Bool.false_eq_true, if_false, h2, h3, h4]

/-- Witness for claim C1's amended theorem on `exDoc1`. -/
theorem fragment_span_runs_to_document_end_witness :
    extractFragmentSpanNodes exDoc1 "sec" none = some (exBody1.children.drop 0) :=
  fragment_span_runs_to_document_end exDoc1 exBody1 "sec" [1] [1, 0] 0
    rfl rfl rfl (by decide) rfl (by decide)

/-- Claim C5 counterexample: over spine `[a.xhtml, b.xhtml]` with entries
`("Ch1","a.xhtml#s1")`, `("Ch2","b.xhtml#s2")`, chapter 1's text is not just
`a.xhtml` from `#s1` to its end: the part list shows spine document 1
(`b.xhtml`) contributing, and the text carries `b.xhtml`'s pre-`#s2` content
`"preamble b"`. -/
theorem scenario_two_entries_counterexample :
    tocSectionsTagged exManifest [] "" "book" exSpine exEntries =
      [(0, "Ch1", "# Chapter One\n\nbody one\n\npreamble b"),
       (1, "Ch2", "# Chapter Two\n\nbody two")] ∧
    (entryParts exManifest [] "" "book" exSpine exE1 (some exE2)).map (fun p => p.1) =
      [0, 1] ∧
    extract_fragment_span_markdown none docA "s1" none = some "# Chapter One\n\nbody one" ∧
    ("# Chapter One\n\nbody one\n\npreamble b" : String) ≠ "# Chapter One\n\nbody one" :=
  ⟨rfl, rfl, rfl, by decide⟩

/-- Claim C5 (amended): the scenario yields exactly two chapters; chapter 1 is
`a.xhtml` from `#s1` to its end **plus** `b.xhtml`'s content before `#s2`,
and chapter 2 is `b.xhtml` from `#s2` onward. -/
theorem scenario_two_entries_chapters :
    build_toc_entries exTocItems exManifest exManifest = exEntries ∧
    tocSectionsTagged exManifest [] "" "book" exSpine exEntries =
      [(0, "Ch1", "# Chapter One\n\nbody one\n\npreamble b"),
       (1, "Ch2", "# Chapter Two\n\nbody two")] ∧
    extract_until_fragment_markdown none docB "s2" = some "preamble b" :=
  ⟨rfl, rfl, rfl⟩

/-- Claim C7: for a non-empty, non-external image source whose resolved path
is absent from the archive, `resolve_image` returns the original `src`
unchanged and extracts nothing; the missing-media warning is emitted exactly
when the manifest lookup succeeded so extraction was attempted and its
archive-membership check failed.  Totality of the embedding reflects that no
exception escapes. -/
theorem resolve_image_missing_asset
    (mh zn : List String) (ph bs en bh src alt : String) (st : MediaState)
    (h1 : src ≠ "") (h2 : is_external_src src = false)
    (h3 : st.extractedImages.lookup (normalize_href (pjoin (pdirname bh) src)) = none)
    (h4 : zipHas zn (pjoin ph (normalize_href (pjoin (pdirname bh) src))) = false) :
    (resolve_image mh zn ph bs en bh src alt st).1 = some src ∧
    (resolve_image mh zn ph bs en bh src alt st).2.extractedImages =
      st.extractedImages ∧
    (resolve_image mh zn ph bs en bh src alt st).2.warnings =
      (if normalize_href (pjoin (pdirname bh) src) ∈ mh then
        st.warnings ++
          ["Warning: missing media '" ++ normalize_href (pjoin (pdirname bh) src) ++
            "' in " ++ en]
      else st.warnings) := by
  by_cases hm : normalize_href (pjoin (pdirname bh) src) ∈ mh
  · simp only [resolve_image, extract_media_href, if_neg h1, h2, Bool.false_eq_true,
      if_false, if_pos hm, h3, h4]
    exact ⟨by trivial, by trivial, by trivial⟩
  · simp only [resolve_image, extract_media_href, if_neg h1, h2, Bool.false_eq_true,
      if_false, if_neg hm, h4, not_false_eq_true, if_true]
    exact ⟨by trivial, by trivial, by trivial⟩

/-- Witness for claim C7: `../images/pic.png` in the manifest but missing
from the archive resolves back to itself and leaves one warning. -/
theorem resolve_image_missing_asset_witness :
    (resolve_image ["images/pic.png"] [] "OEBPS" "book" "x.epub" "text/ch1.xhtml"
      "../images/pic.png" "" ⟨[], 0, []⟩).1 = some "../images/pic.png" ∧
    (resolve_image ["images/pic.png"] [] "OEBPS" "book" "x.epub" "text/ch1.xhtml"
      "../images/pic.png" "" ⟨[], 0, []⟩).2.warnings =
      ["Warning: missing media 'images/pic.png' in x.epub"] := by
  have h := resolve_image_missing_asset ["images/pic.png"] [] "OEBPS" "book" "x.epub"
    "text/ch1.xhtml" "../images/pic.png" "" ⟨[], 0, []⟩
    (by decide) (by decide) (by decide) (by decide)
  refine ⟨h.1, ?_⟩
  rw [h.2.2]
  decide

theorem renderEntryPart_fst {mh zn : List String} {ph bs : String}
    {spine : List SpineDoc} {e : TocEntry} {ne : Option TocEntry}
    {si ei j : Nat} {p : Nat × String}
    (h : renderEntryPart mh zn ph bs spine e ne si ei j = some p) : p.1 = j := by
  unfold renderEntryPart at h
  split at h
  · exact absurd h (by simp)
  · split at h
    · exact absurd h (by simp)
    · dsimp only at h
      split at h
      · exact absurd h (by simp)
      · split at h
        · exact absurd h (by simp)
        · split at h
          · exact absurd h (by simp)
          · cases h
            rfl

theorem renderEntryPart_skip {mh zn : List String} {ph bs : String}
    {spine : List SpineDoc} {e ne : TocEntry} {si ei : Nat}
    (hf : ne.fragment = none) :
    renderEntryPart mh zn ph bs spine e (some ne) si ei ei = none := by
  unfold renderEntryPart
  split
  · rfl
  · split
    · rfl
    · have hskip : (ei == ei && ne.fragment.isNone) = true := by simp [hf]
      simp only [hskip, if_true]

/-- Claim C3: for entry i, `start_idx` is the spine index of its href and
`end_idx` is the spine index of entry i+1's href when it exists (falling back
to the last spine index when that lookup fails), else the last spine index;
when `end_idx < start_idx` the entry is skipped entirely — no section of the
output carries index i — and otherwise every rendered part of entry i comes
from a spine document in `[start_idx, end_idx]`. -/
theorem entry_bounds_degenerate_skip
    (mh zn : List String) (ph bs : String) (spine : List SpineDoc)
    (entries : List TocEntry) (i : Nat) (e : TocEntry) (startIdx : Nat)
    (he : entries[i]? = some e)
    (hs : spineIndexByHref spine e.href = some startIdx) :
    (entryEndIdx spine entries[i + 1]? < startIdx →
      ∀ sec ∈ tocSectionsTagged mh zn ph bs spine entries, sec.1 ≠ i) ∧
    (∀ p ∈ entryParts mh zn ph bs spine e entries[i + 1]?,
      startIdx ≤ p.1 ∧ p.1 ≤ entryEndIdx spine entries[i + 1]?) := by
  constructor
  · intro hlt sec hsec hi
    unfold tocSectionsTagged at hsec
    rcases List.mem_filterMap.mp hsec with ⟨q, hq, hfq⟩
    rcases q with ⟨qi, qe⟩
    dsimp only at hfq
    split at hfq
    · exact absurd hfq (by simp)
    · next htext =>
      injection hfq with hfq2
      have hq1 : qi = i := by
        rw [← hfq2] at hi
        exact hi
      subst hq1
      have hqe : entries[qi]? = some qe := List.mk_mem_enum_iff_getElem?.mp hq
      rw [he] at hqe
      injection hqe with hqe2
      subst hqe2
      apply htext
      have hparts : entryParts mh zn ph bs spine e entries[qi + 1]? = [] := by
        unfold entryParts
        rw [hs]
        dsimp only
        rw [if_pos hlt]
      rw [hparts]
      rfl
  · intro p hp
    unfold entryParts at hp
    rw [hs] at hp
    dsimp only at hp
    split at hp
    · cases hp
    · next hnd =>
      rcases List.mem_filterMap.mp hp with ⟨j, hj, hrj⟩
      have hj2 := List.mem_range'_1.mp hj
      have hj3 := renderEntryPart_fst hrj
      rw [hj3]
      omega

/-- Witness for claim C3: with the spine `[a, b]` and a first entry starting
at document b while the next entry starts at document a, `end_idx = 0 <
1 = start_idx` and no section carries index 0; the second (last) entry spans
`[0, 1]`. -/
theorem entry_bounds_degenerate_skip_witness :
    entryEndIdx exSpine (exEntriesDeg[1]?) < 1 ∧
    (∀ sec ∈ tocSectionsTagged exManifest [] "" "book" exSpine exEntriesDeg,
      sec.1 ≠ 0) ∧
    tocSectionsTagged exManifest [] "" "book" exSpine exEntriesDeg =
      [(1, "Early", "intro a\n\n# Chapter One\n\nbody one\n\npreamble b\n\n# Chapter Two\n\nbody two")] := by
  have h := entry_bounds_degenerate_skip exManifest [] "" "book" exSpine exEntriesDeg
    0 ⟨"Late", "b.xhtml", none, 0⟩ 1 rfl rfl
  exact ⟨by decide, h.1 (by decide), rfl⟩

/-- Claim C4: in the cross-document case where the next entry supplies no
fragment, the end document contributes nothing — every part of the current
chapter comes from a spine index strictly below `end_idx`. -/
theorem cross_document_end_without_fragment_excluded
    (mh zn : List String) (ph bs : String) (spine : List SpineDoc)
    (e ne : TocEntry) (startIdx : Nat)
    (hs : spineIndexByHref spine e.href = some startIdx)
    (hf : ne.fragment = none)
    (hlt : startIdx < entryEndIdx spine (some ne)) :
    ∀ p ∈ entryParts mh zn ph bs spine e (some ne),
      p.1 < entryEndIdx spine (some ne) := by
  intro p hp
  unfold entryParts at hp
  rw [hs] at hp
  dsimp only at hp
  split at hp
  · cases hp
  · next hnd =>
    rcases List.mem_filterMap.mp hp with ⟨j, hj, hrj⟩
    have hj2 := List.mem_range'_1.mp hj
    have hj3 := renderEntryPart_fst hrj
    rcases Nat.lt_or_ge j (entryEndIdx spine (some ne)) with hlt2 | hge
    · omega
    · have hje : j = entryEndIdx spine (some ne) := by omega
      subst hje
      rw [renderEntryPart_skip hf] at hrj
      cases hrj

/-- Witness for claim C4: entries `a.xhtml` then `c.xhtml` (no fragment) over
a three-document spine: `end_idx = 2`, and the chapter's parts come from
spine documents 0 and 1 only. -/
theorem cross_document_end_without_fragment_excluded_witness :
    (∀ p ∈ entryParts exManifest [] "" "book" exSpine3 exF1 (some exF2),
      p.1 < entryEndIdx exSpine3 (some exF2)) ∧
    (entryParts exManifest [] "" "book" exSpine3 exF1 (some exF2)).map
      (fun p => p.1) = [0, 1] := by
  refine ⟨cross_document_end_without_fragment_excluded exManifest [] "" "book"
    exSpine3 exF1 exF2 0 rfl rfl (by decide), rfl⟩

theorem resolveDots_not_dots {m : List String} {l : List Char}
    (h : ∀ rest : List Char, l = '.' :: '.' :: '/' :: rest → False) :
    resolveDots m l = (none, l) := by
  rw [resolveDots.eq_def]
  split
  · next rest => exact absurd rfl (h rest)
  · rfl

theorem dotStrippedForms_not_dots {l : List Char}
    (h : ∀ rest : List Char, l = '.' :: '.' :: '/' :: rest → False) :
    dotStrippedForms l = [] := by
  rw [dotStrippedForms.eq_def]
  split
  · next rest => exact absurd rfl (h rest)
  · rfl

theorem dotStrippedFinal_not_dots {l : List Char}
    (h : ∀ rest : List Char, l = '.' :: '.' :: '/' :: rest → False) :
    dotStrippedFinal l = l := by
  rw [dotStrippedFinal.eq_def]
  split
  · next rest => exact absurd rfl (h rest)
  · rfl

theorem resolveDots_spec (m : List String) (l : List Char) :
    (resolveDots m l).1 =
      ((dotStrippedForms l).find? (fun f => String.mk f ∈ m)).map String.mk ∧
    ((resolveDots m l).1 = none → (resolveDots m l).2 = dotStrippedFinal l) := by
  induction l using resolveDots.induct m with
  | case1 rest hmem =>
    constructor
    · rw [resolveDots, dotStrippedForms, if_pos hmem]
      rw [List.find?_cons_of_pos _ (by simpa using hmem)]
      rfl
    · intro hnone
      rw [resolveDots, if_pos hmem] at hnone
      exact absurd hnone (by simp)
  | case2 rest hmem ih =>
    constructor
    · rw [resolveDots, dotStrippedForms, if_neg hmem]
      rw [List.find?_cons_of_neg _ (by simpa using hmem)]
      exact ih.1
    · intro hnone
      rw [resolveDots, if_neg hmem] at hnone ⊢
      rw [dotStrippedFinal]
      exact ih.2 hnone
  | case3 l hshape =>
    rw [resolveDots_not_dots hshape, dotStrippedForms_not_dots hshape,
      dotStrippedFinal_not_dots hshape]
    exact ⟨rfl, fun _ => rfl⟩

theorem groupInsert_find_ne {base x b : String} {acc : List (String × List String)}
    (hb : b ≠ base) :
    (groupInsert base x acc).find? (fun g => g.1 = b) =
      acc.find? (fun g => g.1 = b) := by
  unfold groupInsert
  split
  · rw [List.find?_map]
    have hco : ((fun g : String × List String => decide (g.1 = b)) ∘
        (fun g : String × List String => if g.1 = base then (g.1, g.2 ++ [x]) else g)) =
        (fun g : String × List String => decide (g.1 = b)) := by
      funext g
      show decide ((if g.1 = base then (g.1, g.2 ++ [x]) else g).1 = b) = decide (g.1 = b)
      by_cases hg : g.1 = base
      · rw [if_pos hg]
      · rw [if_neg hg]
    rw [hco]
    cases hf : acc.find? (fun g => g.1 = b) with
    | none => rfl
    | some g =>
      have hgb : g.1 = b := by simpa using List.find?_some hf
      show some (if g.1 = base then (g.1, g.2 ++ [x]) else g) = some g
      rw [if_neg (by rw [hgb]; exact hb)]
  · rw [List.find?_append]
    have h2 : List.find? (fun g => g.1 = b) [(base, [x])] = none := by
      simp [Ne.symm hb]
    rw [h2]
    exact Option.or_none

theorem groupInsert_find_eq_some {base x : String} {acc : List (String × List String)}
    {g : String × List String}
    (hg : acc.find? (fun q => q.1 = base) = some g) :
    (groupInsert base x acc).find? (fun q => q.1 = base) = some (base, g.2 ++ [x]) := by
  have hany : (acc.any (fun q => q.1 = base)) = true := by
    have hs : (acc.find? (fun q => q.1 = base)).isSome := by rw [hg]; rfl
    rcases List.find?_isSome.mp hs with ⟨y, hy, hpy⟩
    exact List.any_eq_true.mpr ⟨y, hy, hpy⟩
  have hgb : g.1 = base := by simpa using List.find?_some hg
  unfold groupInsert
  rw [if_pos hany, List.find?_map]
  have hco : ((fun q : String × List String => decide (q.1 = base)) ∘
      (fun q : String × List String => if q.1 = base then (q.1, q.2 ++ [x]) else q)) =
      (fun q : String × List String => decide (q.1 = base)) := by
    funext q
    show decide ((if q.1 = base then (q.1, q.2 ++ [x]) else q).1 = base) =
      decide (q.1 = base)
    by_cases hq : q.1 = base
    · rw [if_pos hq]
    · rw [if_neg hq]
  rw [hco, hg]
  show some (if g.1 = base then (g.1, g.2 ++ [x]) else g) = _
  rw [if_pos hgb, hgb]

theorem groupInsert_find_eq_none {base x : String} {acc : List (String × List String)}
    (hg : acc.find? (fun q => q.1 = base) = none) :
    (groupInsert base x acc).find? (fun q => q.1 = base) = some (base, [x]) := by
  have hany : (acc.any (fun q => q.1 = base)) = false := by
    rw [List.any_eq_false]
    intro y hy hpy
    rw [List.find?_eq_none] at hg
    exact hg y hy hpy
  unfold groupInsert
  rw [if_neg (by rw [hany]; exact Bool.false_ne_true), List.find?_append, hg]
  simp

theorem groupInsert_keys_nodup {base x : String} {acc : List (String × List String)}
    (h : (acc.map (fun g => g.1)).Nodup) :
    ((groupInsert base x acc).map (fun g => g.1)).Nodup := by
  unfold groupInsert
  split
  · rw [List.map_map]
    have hco : ((fun g : String × List String => g.1) ∘
        (fun g : String × List String => if g.1 = base then (g.1, g.2 ++ [x]) else g)) =
        (fun g : String × List String => g.1) := by
      funext q
      show (if q.1 = base then (q.1, q.2 ++ [x]) else q).1 = q.1
      by_cases hq : q.1 = base
      · rw [if_pos hq]
      · rw [if_neg hq]
    rw [hco]
    exact h
  · next hany =>
    have hnm : base ∉ acc.map (fun g => g.1) := by
      intro hmem
      rcases List.mem_map.mp hmem with ⟨g, hg, hgb⟩
      exact hany (List.any_eq_true.mpr ⟨g, hg, by simpa using hgb⟩)
    rw [List.map_append]
    simp [List.nodup_append, h, hnm]

theorem groupBasenames_concat (m : List String) (x : String) :
    groupBasenames (m ++ [x]) = groupInsert (pbasename x) x (groupBasenames m) := by
  unfold groupBasenames
  rw [List.foldl_append]
  rfl

theorem groupBasenames_keys_nodup (m : List String) :
    ((groupBasenames m).map (fun g => g.1)).Nodup := by
  induction m using List.reverseRecOn with
  | nil => simp [groupBasenames]
  | append_singleton m x ih =>
    rw [groupBasenames_concat]
    exact groupInsert_keys_nodup ih

theorem groupBasenames_find (m : List String) (b : String) :
    (groupBasenames m).find? (fun g => g.1 = b) =
      (if m.filter (fun h => pbasename h = b) = [] then none
       else some (b, m.filter (fun h => pbasename h = b))) := by
  induction m using List.reverseRecOn with
  | nil => simp [groupBasenames]
  | append_singleton m x ih =>
    rw [groupBasenames_concat, List.filter_append]
    by_cases hbx : b = pbasename x
    · subst hbx
      have hfx : List.filter (fun h => pbasename h = pbasename x) [x] = [x] := by simp
      rw [hfx]
      by_cases hfm : m.filter (fun h => pbasename h = pbasename x) = []
      · rw [if_pos hfm] at ih
        rw [groupInsert_find_eq_none ih, hfm]
        simp
      · rw [if_neg hfm] at ih
        rw [groupInsert_find_eq_some ih]
        have hne : m.filter (fun h => pbasename h = pbasename x) ++ [x] ≠ [] := by simp
        rw [if_neg hne]
    · have hfx : List.filter (fun h => pbasename h = b) [x] = [] := by
        simp [Ne.symm hbx]
      rw [groupInsert_find_ne hbx, ih, hfx, List.append_nil]

theorem lookup_singletonize (gs : List (String × List String)) (b : String)
    (hnd : (gs.map (fun g => g.1)).Nodup) :
    (gs.filterMap (fun g =>
      match g.2 with
      | [x] => some (g.1, x)
      | _ => none)).lookup b =
      (match gs.find? (fun g => g.1 = b) with
       | some g =>
        match g.2 with
        | [x] => some x
        | _ => none
       | none => none) := by
  induction gs with
  | nil => rfl
  | cons g rest ih =>
    rcases g with ⟨gk, gv⟩
    have hnd2 : (rest.map (fun g => g.1)).Nodup := (List.nodup_cons.mp hnd).2
    have hgn : gk ∉ rest.map (fun q => q.1) := by
      have h1 := (List.nodup_cons.mp hnd).1
      simpa using h1
    rw [List.filterMap_cons]
    by_cases hb : gk = b
    · subst hb
      rw [List.find?_cons_of_pos _ (by simp)]
      have hfr : List.find? (fun q : String × List String => q.1 = gk) rest = none := by
        rw [List.find?_eq_none]
        intro q hq hpq
        exact hgn (List.mem_map.mpr ⟨q, hq, by simpa using hpq⟩)
      cases gv with
      | nil =>
        dsimp only
        rw [ih hnd2, hfr]
      | cons y ys =>
        cases ys with
        | nil =>
          dsimp only
          rw [List.lookup_cons]
          simp
        | cons z zs =>
          dsimp only
          rw [ih hnd2, hfr]
    · rw [List.find?_cons_of_neg _ (by simp [hb])]
      cases gv with
      | nil => exact ih hnd2
      | cons y ys =>
        cases ys with
        | nil =>
          dsimp only
          rw [List.lookup_cons]
          have hbk : (b == gk) = false := by
            simp only [beq_eq_false_iff_ne, ne_eq]
            intro he
            exact hb he.symm
          rw [hbk]
          exact ih hnd2
        | cons z zs => exact ih hnd2

theorem mkUniqueBasenameMap_lookup (m : List String) (b : String) :
    (mkUniqueBasenameMap m).lookup b =
      (match m.filter (fun h => pbasename h = b) with
       | [x] => some x
       | _ => none) := by
  unfold mkUniqueBasenameMap
  rw [lookup_singletonize _ _ (groupBasenames_keys_nodup m), groupBasenames_find]
  by_cases hf : m.filter (fun h => pbasename h = b) = []
  · rw [if_pos hf, hf]
  · rw [if_neg hf]

/-- Claim C6: `_resolve_href` (with the unique-basename map built by
`_build_toc_entries`) implements exactly the specified resolution order:
(a) exact normalized match, (b) stripping leading `../` segments one at a
time with retry, (c) unique basename match, (d) unique `/basename` suffix
match, and no match (`none`, not an error) otherwise. -/
theorem resolve_href_matches_spec_order (href : String) (m : List String) :
    resolve_href href m (mkUniqueBasenameMap m) = resolveHrefSpec href m := by
  unfold resolve_href resolveHrefSpec
  by_cases h0 : href = ""
  · rw [if_pos h0, if_pos h0]
  · rw [if_neg h0, if_neg h0]
    by_cases h1 : normalize_href href ∈ m
    · rw [if_pos h1, if_pos h1]
    · rw [if_neg h1, if_neg h1]
      have hd := resolveDots_spec m (normalize_href href).data
      rcases hrd : resolveDots m (normalize_href href).data with ⟨fst, snd⟩
      rw [hrd] at hd
      cases fst with
      | some r =>
        dsimp only
        cases hfind : (dotStrippedForms (normalize_href href).data).find?
            (fun f => String.mk f ∈ m) with
        | none =>
          rw [hfind] at hd
          exact absurd hd.1 (by simp)
        | some f =>
          rw [hfind] at hd
          have hr : r = String.mk f := by simpa using hd.1
          rw [hr]
      | none =>
        have hsnd : snd = dotStrippedFinal (normalize_href href).data := hd.2 rfl
        subst hsnd
        have hfind0 : (dotStrippedForms (normalize_href href).data).find?
            (fun f => String.mk f ∈ m) = none := by
          have h := hd.1
          cases hff : (dotStrippedForms (normalize_href href).data).find?
              (fun f => String.mk f ∈ m) with
          | none => rfl
          | some f =>
            rw [hff] at h
            exact absurd h (by simp)
        rw [hfind0]
        dsimp only
        rw [mkUniqueBasenameMap_lookup]
        cases hfil : m.filter
            (fun h => pbasename h =
              pbasename (String.mk (dotStrippedFinal (normalize_href href).data))) with
        | nil => rfl
        | cons y ys =>
          cases ys with
          | nil => rfl
          | cons z zs => rfl

theorem replaceCRLF_no_cr {l : List Char} (h : '\r' ∉ l) : replaceCRLF l = l := by
  induction l using replaceCRLF.induct with
  | case1 => rfl
  | case2 c => rfl
  | case3 c d rest hcd ih =>
    exact absurd (by rw [hcd.1]; exact List.mem_cons_self _ _) h
  | case4 c d rest hcd ih =>
    rw [replaceCRLF, if_neg hcd]
    rw [ih (fun hm => h (List.mem_cons_of_mem c hm))]

theorem replaceCR_no_cr {l : List Char} (h : '\r' ∉ l) : replaceCR l = l := by
  unfold replaceCR
  conv_rhs => rw [← List.map_id l]
  apply List.map_congr_left
  intro c hc
  have hne : ¬ c = '\r' := fun he => h (he ▸ hc)
  rw [if_neg hne]
  rfl

theorem mem_replaceCR_ne_cr {l : List Char} {c : Char} (hc : c ∈ replaceCR l) :
    c ≠ '\r' := by
  unfold replaceCR at hc
  rcases List.mem_map.mp hc with ⟨a, _, ha⟩
  intro he
  rw [he] at ha
  by_cases h : a = '\r'
  · rw [if_pos h] at ha
    exact absurd ha (by decide)
  · rw [if_neg h] at ha
    exact h ha

theorem mem_collapseNL {n : Nat} {l : List Char} {c : Char}
    (hc : c ∈ collapseNL n l) : c = '\n' ∨ c ∈ l := by
  induction l generalizing n with
  | nil =>
    rw [collapseNL] at hc
    exact Or.inl (List.eq_of_mem_replicate hc)
  | cons d rest ih =>
    rw [collapseNL] at hc
    by_cases hd : d = '\n'
    · rw [if_pos hd] at hc
      rcases ih hc with h | h
      · exact Or.inl h
      · exact Or.inr (List.mem_cons_of_mem _ h)
    · rw [if_neg hd] at hc
      rcases List.mem_append.mp hc with h | h
      · exact Or.inl (List.eq_of_mem_replicate h)
      · rcases List.mem_cons.mp h with h2 | h2
        · exact Or.inr (h2 ▸ List.mem_cons_self _ _)
        · rcases ih h2 with h3 | h3
          · exact Or.inl h3
          · exact Or.inr (List.mem_cons_of_mem _ h3)

theorem runsOkAux_le {n : Nat} {l : List Char} (h : runsOkAux n l = true) : n ≤ 2 := by
  induction l generalizing n with
  | nil =>
    rw [runsOkAux] at h
    exact of_decide_eq_true h
  | cons d rest ih =>
    rw [runsOkAux] at h
    by_cases hd : d = '\n'
    · rw [if_pos hd] at h
      have := ih h
      omega
    · rw [if_neg hd] at h
      exact of_decide_eq_true (Bool.and_elim_left h)

theorem runsOkAux_mono {m k : Nat} {l : List Char} (h : runsOkAux m l = true)
    (hk : k ≤ m) : runsOkAux k l = true := by
  induction l generalizing m k with
  | nil =>
    rw [runsOkAux] at h ⊢
    have := of_decide_eq_true h
    exact decide_eq_true (by omega)
  | cons d rest ih =>
    rw [runsOkAux] at h ⊢
    by_cases hd : d = '\n'
    · rw [if_pos hd] at h ⊢
      exact ih h (by omega)
    · rw [if_neg hd] at h ⊢
      have h1 := of_decide_eq_true (Bool.and_elim_left h)
      have h2 := Bool.and_elim_right h
      exact Bool.and_intro (decide_eq_true (by omega)) h2

theorem runsOkAux_append_left {a b : List Char} {n : Nat}
    (h : runsOkAux n (a ++ b) = true) : runsOkAux n a = true := by
  induction a generalizing n with
  | nil =>
    rw [runsOkAux]
    exact decide_eq_true (runsOkAux_le h)
  | cons d rest ih =>
    rw [List.cons_append, runsOkAux] at h
    rw [runsOkAux]
    by_cases hd : d = '\n'
    · rw [if_pos hd] at h ⊢
      exact ih h
    · rw [if_neg hd] at h ⊢
      exact Bool.and_intro (Bool.and_elim_left h) (ih (Bool.and_elim_right h))

theorem runsOkAux_append_right {a b : List Char} {n : Nat}
    (h : runsOkAux n (a ++ b) = true) : runsOkAux 0 b = true := by
  induction a generalizing n with
  | nil => exact runsOkAux_mono h (Nat.zero_le n)
  | cons d rest ih =>
    rw [List.cons_append, runsOkAux] at h
    by_cases hd : d = '\n'
    · rw [if_pos hd] at h
      exact ih h
    · rw [if_neg hd] at h
      exact ih (Bool.and_elim_right h)

theorem runsOkAux_replicate {m k : Nat} {l : List Char} :
    runsOkAux m (List.replicate k '\n' ++ l) = runsOkAux (m + k) l := by
  induction k generalizing m with
  | zero => rfl
  | succ k ih =>
    rw [List.replicate_succ, List.cons_append, runsOkAux, if_pos rfl, ih]
    congr 1
    omega

theorem collapseNL_runsOk (l : List Char) : ∀ n, runsOkAux 0 (collapseNL n l) = true := by
  induction l with
  | nil =>
    intro n
    rw [collapseNL, ← List.append_nil (List.replicate (min n 2) '\n'), runsOkAux_replicate]
    rw [runsOkAux]
    exact decide_eq_true (by omega)
  | cons d rest ih =>
    intro n
    rw [collapseNL]
    by_cases hd : d = '\n'
    · rw [if_pos hd]
      exact ih (n + 1)
    · rw [if_neg hd]
      have h0 : (0 : Nat) + min n 2 = min n 2 := by omega
      rw [runsOkAux_replicate, h0, runsOkAux, if_neg hd]
      exact Bool.and_intro (decide_eq_true (by omega)) (ih 0)

theorem collapseNL_of_runsOk {n : Nat} {l : List Char} (h : runsOkAux n l = true) :
    collapseNL n l = List.replicate n '\n' ++ l := by
  induction l generalizing n with
  | nil =>
    rw [collapseNL, List.append_nil]
    rw [runsOkAux] at h
    have := of_decide_eq_true h
    congr 1
    omega
  | cons d rest ih =>
    rw [collapseNL, runsOkAux] at *
    by_cases hd : d = '\n'
    · rw [if_pos hd] at h ⊢
      rw [ih h, hd]
      rw [List.replicate_succ', List.append_assoc]
      rfl
    · rw [if_neg hd] at h ⊢
      have h1 := of_decide_eq_true (Bool.and_elim_left h)
      have h2 := Bool.and_elim_right h
      rw [ih h2]
      have hmin : min n 2 = n := by omega
      rw [hmin]
      rfl

theorem runsOkAux_dropWhile {p : Char → Bool} {l : List Char}
    (h : runsOkAux 0 l = true) : runsOkAux 0 (l.dropWhile p) = true := by
  rcases List.dropWhile_suffix p (l := l) with ⟨a, ha⟩
  rw [← ha] at h
  exact runsOkAux_append_right h

theorem runsOkAux_rdropWhile {p : Char → Bool} {l : List Char}
    (h : runsOkAux 0 l = true) : runsOkAux 0 (l.rdropWhile p) = true := by
  rcases List.rdropWhile_prefix p l with ⟨b, hb⟩
  rw [← hb] at h
  exact runsOkAux_append_left h

theorem runsOkAux_pyStrip {p : Char → Bool} {l : List Char}
    (h : runsOkAux 0 l = true) : runsOkAux 0 (pyStrip p l) = true := by
  unfold pyStrip
  exact runsOkAux_rdropWhile (runsOkAux_dropWhile h)

theorem dropWhile_head_false {p : Char → Bool} {l : List Char}
    (h : ∀ c, l.head? = some c → p c = false) : l.dropWhile p = l := by
  cases l with
  | nil => rfl
  | cons a t =>
    rw [List.dropWhile_cons, h a rfl]
    simp only [Bool.false_eq_true, if_false]

theorem head?_dropWhile_false (p : Char → Bool) (l : List Char) :
    ∀ c, (l.dropWhile p).head? = some c → p c = false := by
  induction l with
  | nil =>
    intro c hc
    cases hc
  | cons a t ih =>
    intro c hc
    rw [List.dropWhile_cons] at hc
    by_cases hp : p a = true
    · rw [if_pos hp] at hc
      exact ih c hc
    · rw [if_neg hp] at hc
      injection hc with h2
      subst h2
      exact Bool.eq_false_iff.mpr hp

theorem head?_of_take_eq {w z : List Char} (hp : w = z.take w.length)
    (hw : w ≠ []) : w.head? = z.head? := by
  cases w with
  | nil => exact absurd rfl hw
  | cons a t =>
    cases z with
    | nil =>
      rw [List.take_nil] at hp
      cases hp
    | cons b u =>
      rw [List.length_cons, List.take_succ_cons] at hp
      injection hp with h1 _
      rw [h1]
      rfl

theorem pyStrip_idem (p : Char → Bool) (l : List Char) :
    pyStrip p (pyStrip p l) = pyStrip p l := by
  unfold pyStrip
  have hpref := List.prefix_iff_eq_take.mp ( List.rdropWhile_prefix p (l.dropWhile p))
  have h1 : ((l.dropWhile p).rdropWhile p).dropWhile p = (l.dropWhile p).rdropWhile p := by
    apply dropWhile_head_false
    intro c hc
    have hnil : (l.dropWhile p).rdropWhile p ≠ [] := by
      intro hz
      rw [hz] at hc
      cases hc
    rw [head?_of_take_eq hpref hnil] at hc
    exact head?_dropWhile_false p l c hc
  rw [h1]
  exact List.rdropWhile_idempotent p _

theorem normalized_no_cr (s : String) :
    '\r' ∉ pyStrip isPySpace (collapseNL 0 (replaceCR (replaceCRLF s.data))) := by
  intro hmem
  have h1 := mem_of_mem_pyStrip hmem
  rcases mem_collapseNL h1 with h | h
  · exact absurd h (by decide)
  · exact mem_replaceCR_ne_cr h rfl

/-- Claim C10: `_normalize_text` is idempotent — applying it twice gives the
same result as applying it once. -/
theorem normalize_text_idempotent (s : String) :
    normalize_text (normalize_text s) = normalize_text s := by
  unfold normalize_text
  set x := pyStrip isPySpace (collapseNL 0 (replaceCR (replaceCRLF s.data))) with hx
  have hnocr : '\r' ∉ x := by
    rw [hx]
    exact normalized_no_cr s
  have e1 : replaceCRLF x = x := replaceCRLF_no_cr hnocr
  have e2 : replaceCR x = x := replaceCR_no_cr hnocr
  have hrun : runsOkAux 0 x = true := by
    rw [hx]
    exact runsOkAux_pyStrip (collapseNL_runsOk _ 0)
  have e3 : collapseNL 0 x = x := by
    have h := collapseNL_of_runsOk hrun
    simpa using h
  have e4 : pyStrip isPySpace x = x := by
    rw [hx]
    exact pyStrip_idem _ _
  show String.mk (pyStrip isPySpace (collapseNL 0 (replaceCR (replaceCRLF x)))) = String.mk x
  rw [e1, e2, e3, e4]

end ParseEpubs
